import Mathlib

/-!
Shallow embedding of the PreferentialAttachment repository.

The repository consists of Monte Carlo simulator scripts
(`iteration_generator.js`, `power_law_generator.js`, the preferential
attachment / Gini script) and two function-line-count scanners (the
tree-sitter based counter and the brace-matching counter).  JavaScript
numbers are modelled as elements of a linear ordered field (`ℚ` where the
code is exact arithmetic, `ℝ` where `Math.pow` with a fractional exponent
or Lebesgue measure is involved); each call to `Math.random()` is modelled
as one element of an explicitly supplied draw sequence; unbounded `while`
loops are modelled with explicit fuel.
-/

namespace PA

variable {K : Type*} [LinearOrderedField K]

/-- Cumulative-sum selection: renders the selection `for` loop that appears
verbatim in `samplePreferentialAttachment` (`src/unnamed/part_002`) and in
`preferentialAttachmentStep` (`src/power_law_generator.js`):
`cumsum += w[j]; if (r <= cumsum) return j;` with accumulator `c` for the
running cumulative sum.  Returns `none` when the loop falls through. -/
def cumSelect : List K → K → K → Option ℕ
  | [], _, _ => none
  | w :: ws, r, c => if r ≤ c + w then some 0 else (cumSelect ws r (c + w)).map (· + 1)

/-- The running cumulative sum after `m` entries of the list. -/
def cumsum (ws : List K) (m : ℕ) : K := (ws.take m).sum

/-- `samplePreferentialAttachment` from `src/unnamed/part_002` (lines
24-45).  The single `Math.random()` call is the draw `u`; the code scales
it by the total (`const random = Math.random() * totalSum`) before the
cumulative scan, returns `Math.floor(Math.random() * counts.length)` when
all counts are zero, and falls back to `counts.length - 1` when the scan
falls through. -/
def samplePreferentialAttachment [FloorRing K] (counts : List K) (u : K) : ℕ :=
  let totalSum := counts.sum
  if totalSum = 0 then (⌊u * (counts.length : K)⌋).toNat
  else (cumSelect counts (u * totalSum) 0).getD (counts.length - 1)

/-- The cumulative-probability scan of
`samplePreferentialAttachmentWithWeights` (`src/unnamed/part_002`, lines
97-114): `cumulativeProbability += counts[j] / totalWeight;
if (random <= cumulativeProbability) return j;` with accumulator `p`. -/
def probSelect : List K → K → K → K → Option ℕ
  | [], _, _, _ => none
  | w :: ws, total, r, p =>
      if r ≤ p + w / total then some 0
      else (probSelect ws total r (p + w / total)).map (· + 1)

/-- `samplePreferentialAttachmentWithWeights` from `src/unnamed/part_002`
(lines 97-114): no zero-total guard, the raw draw `r` is compared against
cumulative probabilities, with fallback `counts.length - 1`. -/
def samplePreferentialAttachmentWithWeights (counts : List K) (r : K) : ℕ :=
  let totalWeight := counts.sum
  (probSelect counts totalWeight r 0).getD (counts.length - 1)

/-- `preferentialAttachment` from `src/unnamed/part_002` (lines 53-90):
start from `arraySize` zeros and, for each of `iterations` steps, sample an
index with `samplePreferentialAttachment` and increment it.  `draws i` is
the `Math.random()` value consumed by the `i`-th sample. -/
def preferentialAttachment [FloorRing K] (arraySize : ℕ) (iterations : ℕ)
    (draws : ℕ → K) : List K :=
  (List.range iterations).foldl
    (fun counts i =>
      let selectedIndex := samplePreferentialAttachment counts (draws i)
      counts.set selectedIndex (counts.getD selectedIndex 0 + 1))
    (List.replicate arraySize 0)

/-- The `while (sample > Math.random())` loop of `iterations` in
`src/iteration_generator.js`, with explicit fuel; `draws k` is the
`Math.random()` drawn at the `k`-th test, and the result is `none` when the
fuel runs out before the loop exits. -/
def iterationsLoop (growthRate : K) (draws : ℕ → K) :
    ℕ → K → ℕ → Option ℕ
  | 0, _, _ => none
  | fuel + 1, sample, iters =>
      if draws iters < sample then
        iterationsLoop growthRate draws fuel (sample * (1 + growthRate)) (iters + 1)
      else some iters

/-- `iterations(initialSample, growthRate)` from
`src/iteration_generator.js` (lines 7-17). -/
def iterations (initialSample growthRate : K) (draws : ℕ → K) (fuel : ℕ) :
    Option ℕ :=
  iterationsLoop growthRate draws fuel initialSample 0

/-- The `while (sample <= Math.random())` loop of `generateIterations` in
`src/power_law_generator.js` (the same function also appears in
`src/unnamed/part_001` and `src/unnamed/part_002`), with explicit fuel. -/
def generateIterationsLoop (growthRate : K) (draws : ℕ → K) :
    ℕ → K → ℕ → Option ℕ
  | 0, _, _ => none
  | fuel + 1, sample, iters =>
      if sample ≤ draws iters then
        generateIterationsLoop growthRate draws fuel (sample * (1 + growthRate)) (iters + 1)
      else some iters

/-- `generateIterations(growthRate, initialSample)` from
`src/power_law_generator.js` (lines 7-17). -/
def generateIterations (growthRate initialSample : K) (draws : ℕ → K)
    (fuel : ℕ) : Option ℕ :=
  generateIterationsLoop growthRate draws fuel initialSample 0

/-- `iterations` never exits: with the given draw sequence the loop returns
`none` at every fuel bound. -/
def IterationsNeverHalts (initialSample growthRate : K) (draws : ℕ → K) : Prop :=
  ∀ fuel : ℕ, iterations initialSample growthRate draws fuel = none

/-- The weights computed by `preferentialAttachmentStep` in
`src/power_law_generator.js` (line 32):
`values.map((v) => Math.pow(v, 1 / (alpha - 1)))`, with `Math.pow` on a
positive base modelled by the real power function. -/
noncomputable def paWeights (values : List ℝ) (alpha : ℝ) : List ℝ :=
  values.map fun v => v ^ (1 / (alpha - 1))

/-- `totalWeight` of `preferentialAttachmentStep`:
`weights.reduce((a, b) => a + b, 0)`. -/
noncomputable def paTotalWeight (values : List ℝ) (alpha : ℝ) : ℝ :=
  (paWeights values alpha).sum

/-- The index whose entry `preferentialAttachmentStep` increments, as a
function of the scaled draw `r = Math.random() * totalWeight`: the
cumulative scan `cumsum += weights[i]; if (r <= cumsum) { values[i]++;
break; }`.  `none` means the loop falls through and no entry is
incremented. -/
noncomputable def paStepIndex (values : List ℝ) (alpha : ℝ) (r : ℝ) : Option ℕ :=
  cumSelect (paWeights values alpha) r 0

/-- `preferentialAttachmentStep` from `src/power_law_generator.js` (lines
26-53).  `u` is the `Math.random()` draw scaled by `totalWeight` to pick
the incremented entry, `q` is the second `Math.random()` draw deciding
whether a new element with value `1` is appended. -/
noncomputable def preferentialAttachmentStep (values : List ℝ) (alpha : ℝ)
    (u q newElementProbability : ℝ) : List ℝ :=
  let incremented :=
    match paStepIndex values alpha (u * paTotalWeight values alpha) with
    | some i => values.set i (values.getD i 0 + 1)
    | none => values
  if q < newElementProbability then incremented ++ [1] else incremented

/-- `calculateGini` from `src/unnamed/part_002` (lines 238-251): sort
ascending, return `0` when the sum is zero, otherwise
`(Σ_i (2(i+1) - n - 1)·sorted[i]) / (n·sum)`. -/
def calculateGini (values : List ℚ) : ℚ :=
  let n := values.length
  let sortedValues := List.insertionSort (· ≤ ·) values
  let sum := sortedValues.sum
  if sum = 0 then 0
  else
    (∑ i ∈ Finset.range n, (2 * ((i : ℚ) + 1) - (n : ℚ) - 1) * sortedValues.getD i 0)
      / ((n : ℚ) * sum)

/-- Number of occurrences of character `c` in `s`: renders the
`(line.match(/x/g) || []).length` counts of the brace scanner. -/
def countChar (s : String) (c : Char) : ℕ := s.toList.count c

/-- Mutable scanner state of `countFunctionLines` in `src/unnamed/part_001`
(lines 94-152): the `inFunction`, `functionStartLine`, `braceCount`,
`parenCount` variables plus the accumulated `lineCounts`. -/
structure ScanState where
  inFunction : Bool
  functionStartLine : ℕ
  braceCount : ℤ
  parenCount : ℤ
  lineCounts : List ℤ
deriving DecidableEq

/-- All-zero initial state of the brace scanner. -/
def initialScanState : ScanState := ⟨false, 0, 0, 0, []⟩

/-- The skip test of the brace scanner: empty lines and comment-looking
lines are not processed. -/
def isSkippedLine (line : String) : Bool :=
  line = "" || line.startsWith "//" || line.startsWith "/*" || line.startsWith "*"

/-- The lookahead of the scanner's second detection branch:
`nextLineIndex < lines.length && lines[nextLineIndex].trim().startsWith(brace)`. -/
def hasNextBrace (lines : List String) (i : ℕ) : Bool :=
  decide (i + 1 < lines.length) && ((lines.getD (i + 1) "").trim.startsWith "\x7b")

/-- First half of an iteration of the brace scanner's `for` loop: update
`parenCount`, then run the two function-start detection branches. -/
def detectPhase (lines : List String) (i : ℕ) (line : String)
    (st : ScanState) : ScanState :=
  let openParens := countChar line '('
  let closeParens := countChar line ')'
  let openBraces := countChar line '\x7b'
  let closeBraces := countChar line '\x7d'
  let pc := st.parenCount + (openParens : ℤ) - (closeParens : ℤ)
  let st1 := { st with parenCount := pc }
  if ¬ st1.inFunction ∧ 0 < openParens ∧ pc = 0 ∧ 0 < openBraces then
    { st1 with inFunction := true, functionStartLine := i,
               braceCount := (openBraces : ℤ) - (closeBraces : ℤ) }
  else if ¬ st1.inFunction ∧ 0 < openParens ∧ pc = 0 ∧
      line.contains ')' ∧ ¬ line.contains ';' then
    if hasNextBrace lines i then
      { st1 with inFunction := true, functionStartLine := i, braceCount := 0 }
    else st1
  else st1

/-- The updated brace depth of the scanner at a line:
`braceCount + openBraces - closeBraces`. -/
def newBraceCount (line : String) (st : ScanState) : ℤ :=
  st.braceCount + (countChar line '\x7b' : ℤ) - (countChar line '\x7d' : ℤ)

/-- Whether a line contains any brace (`openBraces > 0 || closeBraces > 0`). -/
def lineHasBrace (line : String) : Prop :=
  0 < countChar line '\x7b' ∨ 0 < countChar line '\x7d'

instance (line : String) : Decidable (lineHasBrace line) := by
  unfold lineHasBrace
  infer_instance

/-- Second half of an iteration of the brace scanner's `for` loop: when
`inFunction`, add the line's braces to `braceCount`; when the depth
returns to `0` on a line containing a brace, record
`i - functionStartLine + 1` (if above one line) and leave the function. -/
def closePhase (i : ℕ) (line : String) (st : ScanState) : ScanState :=
  if st.inFunction then
    let bc := newBraceCount line st
    if bc = 0 ∧ lineHasBrace line then
      let lineCount : ℤ := (i : ℤ) - (st.functionStartLine : ℤ) + 1
      { st with braceCount := bc, inFunction := false, parenCount := 0,
                lineCounts := st.lineCounts ++
                  (if 1 < lineCount then [lineCount] else []) }
    else { st with braceCount := bc }
  else st

/-- One full iteration of the brace scanner's `for` loop over line `i`. -/
def scanLine (lines : List String) (st : ScanState) (i : ℕ) : ScanState :=
  let line := (lines.getD i "").trim
  if isSkippedLine line then st
  else closePhase i line (detectPhase lines i line st)

/-- `countFunctionLines` from `src/unnamed/part_001` (lines 94-152): split
the file content on newlines and run the brace scanner over every line
index, returning the recorded line counts. -/
def countFunctionLines (content : String) : List ℤ :=
  let lines := content.splitOn "\n"
  ((List.range lines.length).foldl (scanLine lines) initialScanState).lineCounts

/-- The brace scanner's state after processing the first `k` line indices
of the file, i.e. the state of the mutable variables when the scanner's
`for` loop reaches `i = k`. -/
def scanStateAt (lines : List String) (k : ℕ) : ScanState :=
  (List.range k).foldl (scanLine lines) initialScanState

/-- The detected function start line in force when the scanner processes
line `e`: the `functionStartLine` variable after the detection phase of
step `e`. -/
def functionStartAt (lines : List String) (e : ℕ) : ℕ :=
  (detectPhase lines e ((lines.getD e "").trim) (scanStateAt lines e)).functionStartLine

/-- The brace scanner's recording event at line index `e`: line `e` is
processed (not skipped), the `inFunction` flag is set after the detection
phase of step `e`, the updated brace depth there returns to zero, and the
line contains a brace — exactly the condition under which the code records
a function ending at line `e` that started at `functionStartAt lines e`. -/
def recordsFunctionAt (lines : List String) (e : ℕ) : Prop :=
  ¬ isSkippedLine ((lines.getD e "").trim) ∧
  (detectPhase lines e ((lines.getD e "").trim) (scanStateAt lines e)).inFunction = true ∧
  newBraceCount ((lines.getD e "").trim)
    (detectPhase lines e ((lines.getD e "").trim) (scanStateAt lines e)) = 0 ∧
  lineHasBrace ((lines.getD e "").trim)

/-- A tree-sitter syntax node: type name, start and end row, children.
Models the `node` objects traversed by `src/treesitter_cpp_counter.js`. -/
inductive Node where
  | node (type : String) (startRow : ℕ) (endRow : ℕ) (children : List Node)

/-- Node type name accessor. -/
def Node.nodeType : Node → String
  | .node t _ _ _ => t

/-- `node.startPosition.row`. -/
def Node.startRow : Node → ℕ
  | .node _ s _ _ => s

/-- `node.endPosition.row`. -/
def Node.endRow : Node → ℕ
  | .node _ _ e _ => e

/-- `node.children`. -/
def Node.children : Node → List Node
  | .node _ _ _ cs => cs

/-- The function-node test of `traverseNode` in
`src/treesitter_cpp_counter.js` (lines 33-35). -/
def isFunctionNode (n : Node) : Bool :=
  n.nodeType = "function_definition" || n.nodeType = "function_declarator"
    || n.nodeType = "method_definition"

/-- The inclusive line span `endLine - startLine + 1` computed by
`traverseNode` (line 39). -/
def nodeSpan (n : Node) : ℕ := n.endRow - n.startRow + 1

/-- `traverseNode` from `src/treesitter_cpp_counter.js` (lines 31-50):
pre-order traversal recording `endLine - startLine + 1` for every node of
a function type, skipping one-liners. -/
def traverseNode : Node → List ℕ
  | .node t s e cs =>
      (if isFunctionNode (.node t s e cs) ∧ 1 < nodeSpan (.node t s e cs)
       then [nodeSpan (.node t s e cs)] else []) ++
        (cs.attach.map (fun c => traverseNode c.1)).flatten
decreasing_by
  have h := List.sizeOf_lt_of_mem c.2
  simp only [Node.node.sizeOf_spec]
  omega

/-- All descendants of a node, the node itself included. -/
def descendants : Node → List Node
  | .node t s e cs => .node t s e cs :: (cs.attach.map (fun c => descendants c.1)).flatten
decreasing_by
  have h := List.sizeOf_lt_of_mem c.2
  simp only [Node.node.sizeOf_spec]
  omega

/-- The cumulative band of entry `j` carved out by the `random <= cumsum`
test of `samplePreferentialAttachment`: left-open right-closed, with the
first band additionally containing its left endpoint `0`. -/
def cumInterval (counts : List K) (j : ℕ) : Set K :=
  if j = 0 then Set.Icc 0 (cumsum counts 1)
  else Set.Ioc (cumsum counts j) (cumsum counts (j + 1))

theorem cumsum_zero (ws : List K) : cumsum ws 0 = 0 := rfl

theorem cumsum_cons_succ (w : K) (ws : List K) (m : ℕ) :
    cumsum (w :: ws) (m + 1) = w + cumsum ws m := by
  simp [cumsum, List.take_succ_cons]

theorem cumsum_nonneg {ws : List K} (h : ∀ w ∈ ws, 0 ≤ w) (m : ℕ) :
    0 ≤ cumsum ws m :=
  List.sum_nonneg fun w hw => h w (List.mem_of_mem_take hw)

theorem cumsum_le_sum {ws : List K} (h : ∀ w ∈ ws, 0 ≤ w) (m : ℕ) :
    cumsum ws m ≤ ws.sum := by
  conv_rhs => rw [← List.take_append_drop m ws]
  rw [List.sum_append]
  have h0 : 0 ≤ (ws.drop m).sum :=
    List.sum_nonneg fun w hw => h w (List.mem_of_mem_drop hw)
  simp only [cumsum]
  exact le_add_of_nonneg_right h0

theorem cumsum_succ_getD {ws : List K} {m : ℕ} (hm : m < ws.length) :
    cumsum ws (m + 1) = cumsum ws m + ws.getD m 0 := by
  induction ws generalizing m with
  | nil => simp at hm
  | cons w ws ih =>
    cases m with
    | zero => simp [cumsum_cons_succ, cumsum_zero]
    | succ m =>
      have hm' : m < ws.length := by simpa using hm
      rw [cumsum_cons_succ, cumsum_cons_succ, ih hm']
      simp [add_assoc]

theorem cumsum_length (ws : List K) : cumsum ws ws.length = ws.sum := by
  simp [cumsum]

theorem cumSelect_nil (r c : K) : cumSelect ([] : List K) r c = none := rfl

theorem cumSelect_cons (w : K) (ws : List K) (r c : K) :
    cumSelect (w :: ws) r c =
      if r ≤ c + w then some 0 else (cumSelect ws r (c + w)).map (· + 1) := rfl

/-- Characterisation of the cumulative selection loop: for non-negative
weights it returns index `j` exactly when the draw `r` lies in the
left-open right-closed cumulative band of entry `j` (the first band is
unbounded below, faithfully to the `r <= cumsum` test of the code). -/
theorem cumSelect_eq_some_iff {ws : List K} (hws : ∀ w ∈ ws, 0 ≤ w)
    (r c : K) (j : ℕ) :
    cumSelect ws r c = some j ↔
      j < ws.length ∧ r ≤ c + cumsum ws (j + 1) ∧ (j = 0 ∨ c + cumsum ws j < r) := by
  induction ws generalizing c j with
  | nil => simp [cumSelect_nil]
  | cons w ws ih =>
    have hw : 0 ≤ w := hws w (List.mem_cons_self w ws)
    have hws' : ∀ x ∈ ws, 0 ≤ x := fun x hx => hws x (List.mem_cons_of_mem _ hx)
    rw [cumSelect_cons]
    by_cases hr : r ≤ c + w
    · rw [if_pos hr]
      cases j with
      | zero =>
        constructor
        · intro _
          refine ⟨Nat.succ_pos _, ?_, Or.inl rfl⟩
          rw [cumsum_cons_succ, cumsum_zero, add_zero]
          exact hr
        · intro _
          rfl
      | succ j =>
        constructor
        · intro h
          exact absurd h (by simp)
        · rintro ⟨-, -, h⟩
          rcases h with h | h
          · exact absurd h (by simp)
          · exfalso
            have h0 : 0 ≤ cumsum ws j := cumsum_nonneg hws' j
            rw [cumsum_cons_succ] at h
            linarith
    · rw [if_neg hr]
      have hmap : ∀ m : ℕ, (cumSelect ws r (c + w)).map (· + 1) = some m ↔
          ∃ j', cumSelect ws r (c + w) = some j' ∧ j' + 1 = m := by
        intro m
        constructor
        · intro h
          rcases Option.map_eq_some'.mp h with ⟨j', hj', heq⟩
          exact ⟨j', hj', heq⟩
        · rintro ⟨j', hj', rfl⟩
          rw [hj']
          rfl
      cases j with
      | zero =>
        rw [hmap]
        constructor
        · rintro ⟨j', -, h⟩
          exact absurd h (by omega)
        · rintro ⟨-, h, -⟩
          exfalso
          apply hr
          rw [cumsum_cons_succ, cumsum_zero, add_zero] at h
          exact h
      | succ j =>
        rw [hmap]
        have hnext : (∃ j', cumSelect ws r (c + w) = some j' ∧ j' + 1 = j + 1) ↔
            cumSelect ws r (c + w) = some j := by
          constructor
          · rintro ⟨j', hj', heq⟩
            have : j' = j := by omega
            rw [← this]
            exact hj'
          · intro h
            exact ⟨j, h, rfl⟩
        rw [hnext, ih hws']
        constructor
        · rintro ⟨h1, h2, h3⟩
          refine ⟨by simpa using h1, ?_, Or.inr ?_⟩
          · rw [cumsum_cons_succ]
            linarith
          · rw [cumsum_cons_succ]
            rcases h3 with h3 | h3
            · subst h3
              rw [cumsum_zero]
              have := lt_of_not_le hr
              linarith
            · linarith
        · rintro ⟨h1, h2, h3⟩
          rcases h3 with h3 | h3
          · exact absurd h3 (by simp)
          · rw [cumsum_cons_succ] at h3
            rw [cumsum_cons_succ] at h2
            exact ⟨by simpa using h1, by linarith, Or.inr (by linarith)⟩

/-- Any index the selection loop returns is in range. -/
theorem cumSelect_lt_length {ws : List K} {r c : K} {j : ℕ}
    (h : cumSelect ws r c = some j) : j < ws.length := by
  induction ws generalizing c j with
  | nil => simp [cumSelect_nil] at h
  | cons w ws ih =>
    rw [cumSelect_cons] at h
    by_cases hr : r ≤ c + w
    · rw [if_pos hr] at h
      have : j = 0 := by simpa using h.symm
      simp [this]
    · rw [if_neg hr] at h
      rcases Option.map_eq_some'.mp h with ⟨j', hj', heq⟩
      have := ih hj'
      simp only [List.length_cons]
      omega

/-- The selection loop cannot fall through while the draw is at most the
remaining cumulative total. -/
theorem cumSelect_isSome {ws : List K} (hne : ws ≠ []) {r c : K}
    (h : r ≤ c + ws.sum) : (cumSelect ws r c).isSome := by
  induction ws generalizing c with
  | nil => exact absurd rfl hne
  | cons w ws ih =>
    rw [cumSelect_cons]
    by_cases hr : r ≤ c + w
    · rw [if_pos hr]; rfl
    · rw [if_neg hr]
      cases ws with
      | nil =>
        exfalso
        apply hr
        simpa using h
      | cons w' ws' =>
        have h' : r ≤ (c + w) + (w' :: ws').sum := by
          rw [List.sum_cons] at h
          rw [add_assoc]
          simpa using h
        have := ih (by simp) h'
        rcases Option.isSome_iff_exists.mp this with ⟨j, hj⟩
        rw [hj]
        rfl

/-- Squeeze principle for Lebesgue volume: a set wedged between `Ioo a b`
and `Icc a b` has volume `b - a`. -/
theorem volume_between {A : Set ℝ} {a b : ℝ}
    (h1 : Set.Ioo a b ⊆ A) (h2 : A ⊆ Set.Icc a b) :
    MeasureTheory.volume A = ENNReal.ofReal (b - a) := by
  apply le_antisymm
  · calc MeasureTheory.volume A ≤ MeasureTheory.volume (Set.Icc a b) :=
          MeasureTheory.measure_mono h2
      _ = ENNReal.ofReal (b - a) := Real.volume_Icc
  · calc ENNReal.ofReal (b - a) = MeasureTheory.volume (Set.Ioo a b) :=
          Real.volume_Ioo.symm
      _ ≤ MeasureTheory.volume A := MeasureTheory.measure_mono h1

/-- The measure of draws in `[0, total)` on which the cumulative selection
loop picks index `i` is exactly the `i`-th weight. -/
theorem cumSelect_volume (ws : List ℝ) (hws : ∀ w ∈ ws, 0 ≤ w)
    (i : ℕ) (hi : i < ws.length) :
    MeasureTheory.volume {r : ℝ | r ∈ Set.Ico 0 ws.sum ∧ cumSelect ws r 0 = some i}
      = ENNReal.ofReal (ws.getD i 0) := by
  have hsel : ∀ r : ℝ, cumSelect ws r 0 = some i ↔
      i < ws.length ∧ r ≤ cumsum ws (i + 1) ∧ (i = 0 ∨ cumsum ws i < r) := by
    intro r
    rw [cumSelect_eq_some_iff hws r 0 i]
    simp
  have hle : cumsum ws (i + 1) ≤ ws.sum := cumsum_le_sum hws (i + 1)
  have hnn : 0 ≤ cumsum ws i := cumsum_nonneg hws i
  have hstep : cumsum ws (i + 1) = cumsum ws i + ws.getD i 0 := cumsum_succ_getD hi
  cases i with
  | zero =>
    have heq : MeasureTheory.volume
        {r : ℝ | r ∈ Set.Ico 0 ws.sum ∧ cumSelect ws r 0 = some 0}
        = ENNReal.ofReal (cumsum ws 1 - 0) := by
      apply volume_between
      · rintro r ⟨hr0, hr1⟩
        refine ⟨⟨le_of_lt hr0, lt_of_lt_of_le hr1 hle⟩, ?_⟩
        rw [hsel r]
        exact ⟨hi, le_of_lt hr1, Or.inl rfl⟩
      · rintro r ⟨⟨hr0, -⟩, hr⟩
        rw [hsel r] at hr
        exact ⟨hr0, hr.2.1⟩
    rw [heq, hstep, cumsum_zero]
    norm_num
  | succ i =>
    have heq : MeasureTheory.volume
        {r : ℝ | r ∈ Set.Ico 0 ws.sum ∧ cumSelect ws r 0 = some (i + 1)}
        = ENNReal.ofReal (cumsum ws (i + 2) - cumsum ws (i + 1)) := by
      apply volume_between
      · rintro r ⟨hr0, hr1⟩
        have h0r : (0 : ℝ) ≤ r := le_trans (cumsum_nonneg hws (i + 1)) (le_of_lt hr0)
        refine ⟨⟨h0r, lt_of_lt_of_le hr1 (cumsum_le_sum hws (i + 2))⟩, ?_⟩
        rw [hsel r]
        exact ⟨hi, le_of_lt hr1, Or.inr hr0⟩
      · rintro r ⟨-, hr⟩
        rw [hsel r] at hr
        rcases hr.2.2 with h | h
        · exact absurd h (by omega)
        · exact ⟨le_of_lt h, hr.2.1⟩
    rw [heq, cumsum_succ_getD hi]
    norm_num

/-- With a positive total, the cumulative-probability scan of
`samplePreferentialAttachmentWithWeights` agrees pointwise with the
cumulative-sum scan of `samplePreferentialAttachment` run on the scaled
draw: dividing each count by the total before comparing is the same as
multiplying the draw by the total. -/
theorem probSelect_eq_cumSelect {total : K} (htotal : 0 < total)
    (ws : List K) (r p : K) :
    probSelect ws total r p = cumSelect ws (r * total) (p * total) := by
  induction ws generalizing p with
  | nil => rfl
  | cons w ws ih =>
    rw [cumSelect_cons]
    have hcond : (r ≤ p + w / total) ↔ (r * total ≤ p * total + w) := by
      have hexp : (p + w / total) * total = p * total + w := by
        field_simp
      rw [← hexp, mul_le_mul_right htotal]
    by_cases hr : r ≤ p + w / total
    · rw [if_pos (hcond.mp hr)]
      simp only [probSelect, if_pos hr]
    · rw [if_neg (fun h => hr (hcond.mpr h))]
      simp only [probSelect, if_neg hr]
      rw [ih (p + w / total)]
      congr 1
      field_simp

/-- `samplePreferentialAttachment` always returns an index below the length
of a non-empty counts array, for any draw in `[0, 1)`. -/
theorem samplePreferentialAttachment_lt_length [FloorRing K]
    {counts : List K} (hne : counts ≠ []) {u : K} (hu1 : u < 1) :
    samplePreferentialAttachment counts u < counts.length := by
  have hlen : 0 < counts.length := List.length_pos.mpr hne
  unfold samplePreferentialAttachment
  by_cases hz : counts.sum = 0
  · rw [if_pos hz]
    have hflt : ⌊u * (counts.length : K)⌋ < (counts.length : ℤ) := by
      rw [Int.floor_lt]
      push_cast
      calc u * (counts.length : K) < 1 * (counts.length : K) := by
            apply mul_lt_mul_of_pos_right hu1
            exact_mod_cast hlen
        _ = (counts.length : K) := one_mul _
    omega
  · rw [if_neg hz]
    cases hsel : cumSelect counts (u * counts.sum) 0 with
    | none => simpa [Option.getD] using Nat.sub_lt hlen Nat.one_pos
    | some j => simpa [Option.getD] using cumSelect_lt_length hsel

/-- Setting index `i` to its current value plus one raises the list sum by
one. -/
theorem sum_set_getD_add_one (l : List K) (i : ℕ) (hi : i < l.length) :
    (l.set i (l.getD i 0 + 1)).sum = l.sum + 1 := by
  induction l generalizing i with
  | nil => simp at hi
  | cons x l ih =>
    cases i with
    | zero =>
      simp only [List.set, List.sum_cons, List.getD_cons_zero]
      ring
    | succ i =>
      have hi' : i < l.length := by simpa using hi
      simp only [List.set, List.sum_cons, List.getD_cons_succ]
      rw [ih i hi']
      ring

/-- Every element of `l.set i a` is `a` or an element of `l`. -/
theorem mem_set_cases {α : Type*} {x a : α} : ∀ (l : List α) (i : ℕ),
    x ∈ l.set i a → x = a ∨ x ∈ l
  | [], i, h => by simp at h
  | y :: l, 0, h => by
      rcases List.mem_cons.mp h with h | h
      · exact Or.inl h
      · exact Or.inr (List.mem_cons_of_mem _ h)
  | y :: l, i + 1, h => by
      rcases List.mem_cons.mp h with h | h
      · exact Or.inr (by simp [h])
      · rcases mem_set_cases l i h with h | h
        · exact Or.inl h
        · exact Or.inr (List.mem_cons_of_mem _ h)

/-- A list sum written as a sum of positional reads over `range`. -/
theorem list_sum_eq_range_getD (l : List K) :
    l.sum = ∑ i ∈ Finset.range l.length, l.getD i 0 := by
  induction l with
  | nil => simp
  | cons x l ih =>
    rw [List.sum_cons, ih, List.length_cons, Finset.sum_range_succ']
    simp [add_comm]

/-- Positional reads of a sorted list are monotone. -/
theorem sorted_getD_mono {l : List ℚ} (h : l.Sorted (· ≤ ·)) {i j : ℕ}
    (hij : i ≤ j) (hj : j < l.length) : l.getD i 0 ≤ l.getD j 0 := by
  rcases eq_or_lt_of_le hij with rfl | hlt
  · exact le_refl _
  · have hi : i < l.length := lt_trans hlt hj
    have := h.rel_get_of_lt (a := ⟨i, hi⟩) (b := ⟨j, hj⟩) (by exact hlt)
    rw [List.getD_eq_getElem _ _ hi, List.getD_eq_getElem _ _ hj]
    simpa [List.get_eq_getElem] using this

/-- The `generateIterations` loop is still running after `fuel` tests
exactly when each of the first `fuel` draws was at or above the growing
sample. -/
theorem generateIterationsLoop_eq_none_iff (g : K) (d : ℕ → K) :
    ∀ (fuel : ℕ) (s : K) (k : ℕ),
      generateIterationsLoop g d fuel s k = none ↔
        ∀ m < fuel, s * (1 + g) ^ m ≤ d (k + m)
  | 0, s, k => by simp [generateIterationsLoop]
  | fuel + 1, s, k => by
    rw [generateIterationsLoop]
    by_cases hc : s ≤ d k
    · rw [if_pos hc, generateIterationsLoop_eq_none_iff g d fuel (s * (1 + g)) (k + 1)]
      constructor
      · intro h m hm
        cases m with
        | zero => simpa using hc
        | succ m =>
          have := h m (by omega)
          calc s * (1 + g) ^ (m + 1) = s * (1 + g) * (1 + g) ^ m := by ring
            _ ≤ d (k + 1 + m) := this
            _ = d (k + (m + 1)) := by ring_nf
      · intro h m hm
        have := h (m + 1) (by omega)
        calc s * (1 + g) * (1 + g) ^ m = s * (1 + g) ^ (m + 1) := by ring
          _ ≤ d (k + (m + 1)) := this
          _ = d (k + 1 + m) := by ring_nf
    · rw [if_neg hc]
      constructor
      · intro h
        exact absurd h (by simp)
      · intro h
        exact absurd (h 0 (by omega)) (by simpa using hc)

/-- The `iterations` loop is still running after `fuel` tests exactly when
each of the first `fuel` draws was strictly below the growing sample. -/
theorem iterationsLoop_eq_none_iff (g : K) (d : ℕ → K) :
    ∀ (fuel : ℕ) (s : K) (k : ℕ),
      iterationsLoop g d fuel s k = none ↔
        ∀ m < fuel, d (k + m) < s * (1 + g) ^ m
  | 0, s, k => by simp [iterationsLoop]
  | fuel + 1, s, k => by
    rw [iterationsLoop]
    by_cases hc : d k < s
    · rw [if_pos hc, iterationsLoop_eq_none_iff g d fuel (s * (1 + g)) (k + 1)]
      constructor
      · intro h m hm
        cases m with
        | zero => simpa using hc
        | succ m =>
          have := h m (by omega)
          calc d (k + (m + 1)) = d (k + 1 + m) := by ring_nf
            _ < s * (1 + g) * (1 + g) ^ m := this
            _ = s * (1 + g) ^ (m + 1) := by ring
      · intro h m hm
        have := h (m + 1) (by omega)
        calc d (k + 1 + m) = d (k + (m + 1)) := by ring_nf
          _ < s * (1 + g) ^ (m + 1) := this
          _ = s * (1 + g) * (1 + g) ^ m := by ring
    · rw [if_neg hc]
      constructor
      · intro h
        exact absurd h (by simp)
      · intro h
        exact absurd (h 0 (by omega)) (by simpa using hc)

theorem iterationsLoop_succ (g : K) (d : ℕ → K) (fuel : ℕ) (s : K) (k : ℕ) :
    iterationsLoop g d (fuel + 1) s k =
      if d k < s then iterationsLoop g d fuel (s * (1 + g)) (k + 1) else some k := rfl

theorem generateIterationsLoop_succ (g : K) (d : ℕ → K) (fuel : ℕ) (s : K) (k : ℕ) :
    generateIterationsLoop g d (fuel + 1) s k =
      if s ≤ d k then generateIterationsLoop g d fuel (s * (1 + g)) (k + 1) else some k := rfl

/-- C3: the two threshold-crossing samplers do NOT implement the same
procedure.  At growthRate `1/10`, initialSample `1/2` and the constant draw
sequence `3/4` (each draw in `[0,1)`), `iterations` exits immediately with
count `0` (its loop runs only while the sample is strictly above the draw),
while `generateIterations` runs until the growing sample exceeds the draw
and returns `5`.  This contradicts the claim and the doc comment of
`iterations` itself, which promises the count of iterations until the
sample exceeds the random threshold. -/
theorem C3_samplers_disagree_at_failing_input :
    iterations (1/2 : ℚ) (1/10) (fun _ => 3/4) 10 = some 0 ∧
    generateIterations (1/10 : ℚ) (1/2) (fun _ => 3/4) 10 = some 5 ∧
    (0 : ℕ) ≠ 5 := by
  refine ⟨?_, ?_, by norm_num⟩
  · norm_num [iterations, iterationsLoop_succ, show (10:ℕ) = 9+1 from rfl]
  · norm_num [generateIterations, generateIterationsLoop_succ,
      show (10:ℕ) = 3+1+1+1+1+1+1+1 from rfl]

/-- C4: the `iterations` loop of `iteration_generator.js` does not exit
after finitely many steps on every admissible input: with growthRate
`1/10 > 0`, initialSample `1/100 ∈ (0,1)` and the all-zero draw sequence
(each draw in `[0,1)`), the loop condition `sample > draw` holds forever
because the sample stays positive, so the loop returns no count at any
fuel bound. -/
theorem C4_iterations_never_halts :
    IterationsNeverHalts (1/100 : ℚ) (1/10) (fun _ => 0) := by
  intro fuel
  unfold iterations
  rw [iterationsLoop_eq_none_iff]
  intro m _
  have hpos : (0:ℚ) < (1/100) * (1 + 1/10) ^ m := by positivity
  simpa using hpos

/-- C6: with non-negative counts of positive sum and a draw in `[0,1)`,
`samplePreferentialAttachment` (which scales the draw by the total before
the cumulative-sum scan) and `samplePreferentialAttachmentWithWeights`
(which compares the raw draw against cumulative probabilities) return the
same index. -/
theorem C6_two_samplers_agree [FloorRing K] (counts : List K) (r : K)
    (hnn : ∀ v ∈ counts, 0 ≤ v) (hsum : 0 < counts.sum)
    (hr0 : 0 ≤ r) (hr1 : r < 1) :
    samplePreferentialAttachment counts r =
      samplePreferentialAttachmentWithWeights counts r := by
  unfold samplePreferentialAttachment samplePreferentialAttachmentWithWeights
  dsimp only
  rw [if_neg (ne_of_gt hsum), probSelect_eq_cumSelect hsum, zero_mul]

/-- C6 witness at counts `[1, 2]` and draw `1/2`. -/
theorem C6_two_samplers_agree_witness :
    samplePreferentialAttachment [(1:ℚ), 2] (1/2) =
      samplePreferentialAttachmentWithWeights [(1:ℚ), 2] (1/2) :=
  C6_two_samplers_agree [(1:ℚ), 2] (1/2)
    (by norm_num) (by norm_num [List.sum_cons, List.sum_nil]) (by norm_num) (by norm_num)

/-- C10: for a non-empty counts array of non-negative numbers and a draw in
`[0,1)`, `samplePreferentialAttachment` always returns an index strictly
below the array length — through the all-zero uniform branch, through the
cumulative scan, and through the `counts.length - 1` fallback alike. -/
theorem C10_sample_index_in_range [FloorRing K] (counts : List K) (u : K)
    (hne : counts ≠ []) (hnn : ∀ v ∈ counts, 0 ≤ v)
    (hu0 : 0 ≤ u) (hu1 : u < 1) :
    samplePreferentialAttachment counts u < counts.length :=
  samplePreferentialAttachment_lt_length hne hu1

/-- C10 witness at the all-zero array `[0, 0]` (uniform branch) with draw
`1/2`. -/
theorem C10_sample_index_in_range_witness :
    samplePreferentialAttachment [(0:ℚ), 0] (1/2) < 2 := by
  have h := C10_sample_index_in_range [(0:ℚ), 0] (1/2)
    (by simp) (by norm_num) (by norm_num) (by norm_num)
  simpa using h

theorem preferentialAttachment_zero [FloorRing K] (arraySize : ℕ) (draws : ℕ → K) :
    preferentialAttachment arraySize 0 draws = List.replicate arraySize (0 : K) := rfl

theorem preferentialAttachment_succ [FloorRing K] (arraySize n : ℕ) (draws : ℕ → K) :
    preferentialAttachment arraySize (n + 1) draws =
      (preferentialAttachment arraySize n draws).set
        (samplePreferentialAttachment (preferentialAttachment arraySize n draws) (draws n))
        ((preferentialAttachment arraySize n draws).getD
          (samplePreferentialAttachment (preferentialAttachment arraySize n draws) (draws n)) 0
          + 1) := by
  unfold preferentialAttachment
  rw [List.range_succ, List.foldl_append]
  rfl

/-- C9: for `arraySize ≥ 1` and any draw sequence in `[0,1)`, the
simulation `preferentialAttachment` returns an array of length exactly
`arraySize` whose entries are non-negative integers summing to exactly the
number of iterations — each step increments exactly one in-range entry by
one, starting from all zeros. -/
theorem C9_simulation_invariants [FloorRing K] (arraySize iterations : ℕ)
    (draws : ℕ → K) (hsize : 1 ≤ arraySize)
    (hdraws : ∀ i, 0 ≤ draws i ∧ draws i < 1) :
    (preferentialAttachment arraySize iterations draws).length = arraySize ∧
    (preferentialAttachment arraySize iterations draws).sum = (iterations : K) ∧
    ∀ v ∈ preferentialAttachment arraySize iterations draws, ∃ m : ℕ, v = (m : K) := by
  induction iterations with
  | zero =>
    refine ⟨by simp [preferentialAttachment_zero], by simp [preferentialAttachment_zero], ?_⟩
    intro v hv
    rw [preferentialAttachment_zero] at hv
    exact ⟨0, by simpa using (List.eq_of_mem_replicate hv)⟩
  | succ n ih =>
    obtain ⟨hlen, hsum, hnat⟩ := ih
    have hne : preferentialAttachment arraySize n draws ≠ [] := by
      intro h
      rw [h] at hlen
      simp at hlen
      omega
    have hidx : samplePreferentialAttachment (preferentialAttachment arraySize n draws)
        (draws n) < (preferentialAttachment arraySize n draws).length :=
      samplePreferentialAttachment_lt_length hne (hdraws n).2
    rw [preferentialAttachment_succ]
    refine ⟨by rw [List.length_set, hlen], ?_, ?_⟩
    · rw [sum_set_getD_add_one _ _ hidx, hsum]
      push_cast
      ring
    · intro v hv
      rcases mem_set_cases _ _ hv with hv | hv
      · have hmem : (preferentialAttachment arraySize n draws).getD
            (samplePreferentialAttachment (preferentialAttachment arraySize n draws)
              (draws n)) 0 ∈ preferentialAttachment arraySize n draws := by
          rw [List.getD_eq_getElem _ _ hidx]
          exact List.getElem_mem _
        rcases hnat _ hmem with ⟨m, hm⟩
        exact ⟨m + 1, by rw [hv, hm]; push_cast; ring⟩
      · exact hnat v hv

/-- C9 witness: one step on a two-cell array with the constant draw `1/2`. -/
theorem C9_simulation_invariants_witness :
    (preferentialAttachment (K := ℚ) 2 1 (fun _ => 1/2)).length = 2 ∧
    (preferentialAttachment (K := ℚ) 2 1 (fun _ => 1/2)).sum = ((1 : ℕ) : ℚ) ∧
    ∀ v ∈ preferentialAttachment (K := ℚ) 2 1 (fun _ => 1/2), ∃ m : ℕ, v = (m : ℚ) :=
  C9_simulation_invariants 2 1 (fun _ => 1/2) (by norm_num)
    (fun i => ⟨by norm_num, by norm_num⟩)

/-- With a positive total sum, `samplePreferentialAttachment` applied to a
draw `u` with `u * sum < sum` is exactly the index found by the cumulative
scan at `u * sum`. -/
theorem samplePA_eq_iff [FloorRing K] {counts : List K} (hsum : 0 < counts.sum)
    {u : K} (huS : u * counts.sum < counts.sum) (j : ℕ) :
    samplePreferentialAttachment counts u = j ↔
      cumSelect counts (u * counts.sum) 0 = some j := by
  unfold samplePreferentialAttachment
  dsimp only
  rw [if_neg (ne_of_gt hsum)]
  have hne : counts ≠ [] := by
    intro h
    rw [h] at hsum
    simp at hsum
  have hsome := cumSelect_isSome hne (c := 0) (r := u * counts.sum)
    (by rw [zero_add]; exact le_of_lt huS)
  rcases Option.isSome_iff_exists.mp hsome with ⟨j', hj'⟩
  rw [hj']
  simp only [Option.getD_some]
  constructor
  · rintro rfl
    rfl
  · intro h
    exact Option.some_injective _ h

/-- Membership in the `j`-th cumulative band (for `j` in range and a draw
in `[0, sum)`) is the same as the cumulative scan finding `j`. -/
theorem cumInterval_iff_cumSelect {counts : List K} (hnn : ∀ v ∈ counts, 0 ≤ v)
    {r : K} (hr0 : 0 ≤ r) {j : ℕ} (hj : j < counts.length) :
    r ∈ cumInterval counts j ↔ cumSelect counts r 0 = some j := by
  rw [cumSelect_eq_some_iff hnn r 0 j]
  unfold cumInterval
  cases j with
  | zero =>
    simp only [if_pos rfl, Set.mem_Icc, zero_add]
    constructor
    · rintro ⟨-, h⟩
      exact ⟨hj, h, by simp⟩
    · rintro ⟨-, h, -⟩
      exact ⟨hr0, h⟩
  | succ m =>
    simp only [if_neg (Nat.succ_ne_zero m), Set.mem_Ioc, zero_add]
    constructor
    · rintro ⟨h1, h2⟩
      exact ⟨hj, h2, Or.inr h1⟩
    · rintro ⟨-, h2, h3⟩
      rcases h3 with h3 | h3
      · exact absurd h3 (by simp)
      · exact ⟨h3, h2⟩

/-- C2: for non-negative counts with positive sum `S` and a scaled draw
`r ∈ [0, S)`, there is a unique cumulative band containing `r`,
`samplePreferentialAttachment` (fed the raw draw `r / S` that the code
multiplies back by `S`) returns exactly that band's index, and the
Lebesgue measure of raw draws in `[0, 1)` selecting index `j` is
`counts[j] / S` — selection probability proportional to the current
accumulated count. -/
theorem C2_sample_proportional_to_counts (counts : List ℝ)
    (hnn : ∀ v ∈ counts, 0 ≤ v) (hsum : 0 < counts.sum) :
    (∀ r : ℝ, 0 ≤ r → r < counts.sum →
        (∃! j, j < counts.length ∧ r ∈ cumInterval counts j) ∧
        ∀ j, j < counts.length → r ∈ cumInterval counts j →
          samplePreferentialAttachment counts (r / counts.sum) = j) ∧
    (∀ j, j < counts.length →
        MeasureTheory.volume
            {u : ℝ | u ∈ Set.Ico (0:ℝ) 1 ∧ samplePreferentialAttachment counts u = j}
          = ENNReal.ofReal (counts.getD j 0 / counts.sum)) := by
  have hne : counts ≠ [] := by
    intro h
    rw [h] at hsum
    simp at hsum
  constructor
  · intro r hr0 hrS
    constructor
    · have hsome := cumSelect_isSome hne (c := 0) (r := r)
        (by rw [zero_add]; exact le_of_lt hrS)
      rcases Option.isSome_iff_exists.mp hsome with ⟨j, hj⟩
      have hjlen := cumSelect_lt_length hj
      refine ⟨j, ⟨hjlen, (cumInterval_iff_cumSelect hnn hr0 hjlen).mpr hj⟩, ?_⟩
      rintro k ⟨hklen, hk⟩
      have hk' := (cumInterval_iff_cumSelect hnn hr0 hklen).mp hk
      rw [hj] at hk'
      exact (Option.some_injective _ hk').symm
    · intro j hjlen hj
      have hsel := (cumInterval_iff_cumSelect hnn hr0 hjlen).mp hj
      have hrS' : (r / counts.sum) * counts.sum = r :=
        div_mul_cancel₀ r (ne_of_gt hsum)
      rw [samplePA_eq_iff hsum (by rw [hrS']; exact hrS) j, hrS']
      exact hsel
  · intro j hjlen
    have hCle : ∀ m, cumsum counts m ≤ counts.sum := fun m => cumsum_le_sum hnn m
    have hCnn : ∀ m, 0 ≤ cumsum counts m := fun m => cumsum_nonneg hnn m
    have hdivle : ∀ m, cumsum counts m / counts.sum ≤ 1 := fun m =>
      (div_le_one hsum).mpr (hCle m)
    have hdivnn : ∀ m, 0 ≤ cumsum counts m / counts.sum := fun m =>
      div_nonneg (hCnn m) (le_of_lt hsum)
    have hmemsel : ∀ u : ℝ, 0 ≤ u → u < 1 →
        (samplePreferentialAttachment counts u = j ↔
          cumSelect counts (u * counts.sum) 0 = some j) := by
      intro u _ hu1
      exact samplePA_eq_iff hsum (by
        calc u * counts.sum < 1 * counts.sum :=
              mul_lt_mul_of_pos_right hu1 hsum
          _ = counts.sum := one_mul _) j
    cases j with
    | zero =>
      have heq : MeasureTheory.volume
          {u : ℝ | u ∈ Set.Ico (0:ℝ) 1 ∧ samplePreferentialAttachment counts u = 0}
          = ENNReal.ofReal (cumsum counts 1 / counts.sum - 0) := by
        apply volume_between
        · rintro u ⟨hu0, hu1⟩
          have hu1' : u < 1 := lt_of_lt_of_le hu1 (hdivle 1)
          refine ⟨⟨le_of_lt hu0, hu1'⟩, ?_⟩
          rw [hmemsel u (le_of_lt hu0) hu1']
          rw [cumSelect_eq_some_iff hnn _ 0 0]
          refine ⟨hjlen, ?_, Or.inl rfl⟩
          rw [zero_add]
          exact le_of_lt ((lt_div_iff hsum).mp hu1)
        · rintro u ⟨⟨hu0, hu1⟩, hu⟩
          rw [hmemsel u hu0 hu1, cumSelect_eq_some_iff hnn _ 0 0] at hu
          refine ⟨hu0, ?_⟩
          rw [zero_add] at hu
          exact (le_div_iff hsum).mpr hu.2.1
      rw [heq, sub_zero]
      congr 1
      rw [cumsum_succ_getD hjlen, cumsum_zero, zero_add]
    | succ m =>
      have hmlen : m + 1 < counts.length := hjlen
      have heq : MeasureTheory.volume
          {u : ℝ | u ∈ Set.Ico (0:ℝ) 1 ∧ samplePreferentialAttachment counts u = m + 1}
          = ENNReal.ofReal (cumsum counts (m + 2) / counts.sum
              - cumsum counts (m + 1) / counts.sum) := by
        apply volume_between
        · rintro u ⟨hu0, hu1⟩
          have hu0' : (0:ℝ) ≤ u := le_trans (hdivnn (m + 1)) (le_of_lt hu0)
          have hu1' : u < 1 := lt_of_lt_of_le hu1 (hdivle (m + 2))
          refine ⟨⟨hu0', hu1'⟩, ?_⟩
          rw [hmemsel u hu0' hu1']
          rw [cumSelect_eq_some_iff hnn _ 0 (m + 1)]
          refine ⟨hjlen, ?_, Or.inr ?_⟩
          · rw [zero_add]
            exact le_of_lt ((lt_div_iff hsum).mp hu1)
          · rw [zero_add]
            exact (div_lt_iff hsum).mp hu0
        · rintro u ⟨⟨hu0, hu1⟩, hu⟩
          rw [hmemsel u hu0 hu1, cumSelect_eq_some_iff hnn _ 0 (m + 1)] at hu
          obtain ⟨-, h2, h3⟩ := hu
          rw [zero_add] at h2
          rcases h3 with h3 | h3
          · exact absurd h3 (by omega)
          · rw [zero_add] at h3
            exact ⟨le_of_lt ((div_lt_iff hsum).mpr h3), (le_div_iff hsum).mpr h2⟩
      rw [heq, div_sub_div_same]
      congr 1
      rw [cumsum_succ_getD hmlen]
      ring

/-- C2 witness at counts `[1, 2]`. -/
theorem C2_sample_proportional_to_counts_witness :
    (∀ r : ℝ, 0 ≤ r → r < ([(1:ℝ), 2]).sum →
        (∃! j, j < ([(1:ℝ), 2]).length ∧ r ∈ cumInterval [(1:ℝ), 2] j) ∧
        ∀ j, j < ([(1:ℝ), 2]).length → r ∈ cumInterval [(1:ℝ), 2] j →
          samplePreferentialAttachment [(1:ℝ), 2] (r / ([(1:ℝ), 2]).sum) = j) ∧
    (∀ j, j < ([(1:ℝ), 2]).length →
        MeasureTheory.volume
            {u : ℝ | u ∈ Set.Ico (0:ℝ) 1 ∧
              samplePreferentialAttachment [(1:ℝ), 2] u = j}
          = ENNReal.ofReal (([(1:ℝ), 2]).getD j 0 / ([(1:ℝ), 2]).sum)) :=
  C2_sample_proportional_to_counts [(1:ℝ), 2]
    (by norm_num) (by norm_num [List.sum_cons, List.sum_nil])

/-- C1 (amended): in a growth step of `generatePowerLawPreferential` on
positive values, the entry `values[i]` is incremented with probability
proportional to `values[i] ^ (1 / (alpha - 1))` — the weight the code
computes — not to `values[i]` itself: the Lebesgue measure of scaled draws
`r ∈ [0, totalWeight)` on which `preferentialAttachmentStep` increments
`values[i]` equals that weight. -/
theorem C1_step_measure_is_weight (values : List ℝ) (alpha : ℝ)
    (hne : values ≠ []) (hpos : ∀ v ∈ values, 0 < v) (halpha : alpha ≠ 1)
    (i : ℕ) (hi : i < values.length) :
    MeasureTheory.volume
        {r : ℝ | r ∈ Set.Ico 0 (paTotalWeight values alpha) ∧
          paStepIndex values alpha r = some i}
      = ENNReal.ofReal (values.getD i 0 ^ (1 / (alpha - 1))) := by
  have hwnn : ∀ w ∈ paWeights values alpha, 0 ≤ w := by
    intro w hw
    unfold paWeights at hw
    rcases List.mem_map.mp hw with ⟨v, hv, rfl⟩
    exact Real.rpow_nonneg (le_of_lt (hpos v hv)) _
  have hlen : i < (paWeights values alpha).length := by
    simpa [paWeights] using hi
  have h := cumSelect_volume (paWeights values alpha) hwnn i hlen
  unfold paStepIndex paTotalWeight
  rw [h]
  congr 1
  rw [List.getD_eq_getElem _ _ hlen]
  unfold paWeights
  rw [List.getElem_map]
  rw [List.getD_eq_getElem _ _ hi]

/-- C1 witness at values `[1, 2]`, `alpha = 3/2`, index `1`. -/
theorem C1_step_measure_is_weight_witness :
    MeasureTheory.volume
        {r : ℝ | r ∈ Set.Ico 0 (paTotalWeight [1, 2] (3/2)) ∧
          paStepIndex [1, 2] (3/2) r = some 1}
      = ENNReal.ofReal (([(1:ℝ), 2]).getD 1 0 ^ ((1:ℝ) / (3/2 - 1))) :=
  C1_step_measure_is_weight [1, 2] (3/2) (by simp)
    (by norm_num [List.forall_mem_cons]) (by norm_num) 1 (by norm_num)

theorem paWeights_example : paWeights [1, 2] (3/2) = [1, 4] := by
  unfold paWeights
  have h2 : ((2:ℝ) ^ ((1:ℝ) / (3/2 - 1))) = 4 := by
    have he : ((1:ℝ) / (3/2 - 1)) = ((2:ℕ) : ℝ) := by norm_num
    rw [he, Real.rpow_natCast]
    norm_num
  simp only [List.map_cons, List.map_nil]
  rw [Real.one_rpow, h2]

/-- C1 counterexample: at values `[1, 2]` and `alpha = 3/2` the weights are
`[1, 4]`, the total weight is `5`, and the measure of scaled draws on which
the step increments `values[1]` is `4` — neither `values[1]/sum = 2/3` (the
claim read literally) nor `(values[1]/sum) · totalWeight = 10/3` (the claim
read as a probability over `[0, totalWeight)`).  Selection is proportional
to `value^(1/(alpha-1))`, not to the current accumulated value. -/
theorem C1_counterexample :
    MeasureTheory.volume
        {r : ℝ | r ∈ Set.Ico 0 (paTotalWeight [1, 2] (3/2)) ∧
          paStepIndex [1, 2] (3/2) r = some 1}
      = ENNReal.ofReal 4 ∧
    ENNReal.ofReal (4:ℝ) ≠ ENNReal.ofReal ((2 : ℝ) / (1 + 2)) ∧
    ENNReal.ofReal (4:ℝ) ≠
      ENNReal.ofReal (((2 : ℝ) / (1 + 2)) * paTotalWeight [1, 2] (3/2)) := by
  have htw : paTotalWeight [1, 2] (3/2) = 5 := by
    unfold paTotalWeight
    rw [paWeights_example]
    norm_num [List.sum_cons, List.sum_nil]
  refine ⟨?_, ?_, ?_⟩
  · have h := cumSelect_volume [1, 4] (by norm_num [List.forall_mem_cons]) 1 (by norm_num)
    have hset : {r : ℝ | r ∈ Set.Ico 0 (paTotalWeight [1, 2] (3/2)) ∧
          paStepIndex [1, 2] (3/2) r = some 1}
        = {r : ℝ | r ∈ Set.Ico 0 ([(1:ℝ), 4]).sum ∧ cumSelect [1, 4] r 0 = some 1} := by
      unfold paStepIndex paTotalWeight
      rw [paWeights_example]
    rw [hset, h]
    norm_num
  · intro h
    have h4 : (4:ℝ) = 2 / (1 + 2) := by
      have := (ENNReal.ofReal_eq_ofReal_iff (by norm_num) (by norm_num)).mp h
      exact this
    norm_num at h4
  · rw [htw]
    intro h
    have h4 : (4:ℝ) = 2 / (1 + 2) * 5 := by
      have := (ENNReal.ofReal_eq_ofReal_iff (by norm_num) (by norm_num)).mp h
      exact this
    norm_num at h4

theorem calculateGini_eq (values : List ℚ) :
    calculateGini values =
      if (List.insertionSort (· ≤ ·) values).sum = 0 then 0
      else
        (∑ i ∈ Finset.range values.length,
            (2 * ((i : ℚ) + 1) - (values.length : ℚ) - 1) *
              (List.insertionSort (· ≤ ·) values).getD i 0)
          / ((values.length : ℚ) * (List.insertionSort (· ≤ ·) values).sum) := rfl

/-- The Gini coefficient weights `2(i+1) - n - 1` sum to zero over
`i < n`. -/
theorem sum_gini_coeff_zero (n : ℕ) :
    ∑ i ∈ Finset.range n, (2 * ((i : ℚ) + 1) - (n : ℚ) - 1) = 0 := by
  have hsplit : ∀ i : ℕ, (2 * ((i : ℚ) + 1) - (n : ℚ) - 1) = 2 * (i:ℚ) + (1 - (n:ℚ)) := by
    intro i
    ring
  rw [Finset.sum_congr rfl (fun i _ => hsplit i), Finset.sum_add_distrib,
    ← Finset.mul_sum, Finset.sum_const, Finset.card_range, nsmul_eq_mul]
  have hgauss : (∑ i ∈ Finset.range n, (i:ℚ)) * 2 = (n:ℚ) * ((n:ℚ) - 1) := by
    cases n with
    | zero => simp
    | succ k =>
      have hid := Finset.sum_range_id_mul_two (k + 1)
      rw [Nat.add_sub_cancel] at hid
      have hq : ((∑ i ∈ Finset.range (k+1), i : ℕ) : ℚ) * 2 = ((k+1 : ℕ) : ℚ) * (k : ℕ) := by
        exact_mod_cast congrArg (Nat.cast : ℕ → ℚ) hid
      rw [Nat.cast_sum] at hq
      push_cast at hq ⊢
      linear_combination hq
  linear_combination hgauss

/-- C5: for a non-empty list of non-negative numbers, `calculateGini` is in
`[0, 1]`; it is exactly `0` whenever all entries are equal (the all-zero
list going through the zero-sum guard). -/
theorem C5_gini_in_unit_interval (values : List ℚ) (hne : values ≠ [])
    (hnn : ∀ v ∈ values, 0 ≤ v) :
    0 ≤ calculateGini values ∧ calculateGini values ≤ 1 ∧
      ((∀ v ∈ values, ∀ w ∈ values, v = w) → calculateGini values = 0) := by
  have hperm := List.perm_insertionSort (· ≤ ·) values
  have hsorted := List.sorted_insertionSort (· ≤ ·) values
  rw [calculateGini_eq]
  generalize hsd : List.insertionSort (· ≤ ·) values = s at hperm hsorted ⊢
  have hlen : s.length = values.length := hperm.length_eq
  have hn : 0 < values.length := List.length_pos.mpr hne
  have hnq : (0:ℚ) < (values.length : ℚ) := by exact_mod_cast hn
  have hmem : ∀ v ∈ s, 0 ≤ v := fun v hv => hnn v (hperm.mem_iff.mp hv)
  have hgd : ∀ i : ℕ, 0 ≤ s.getD i 0 := by
    intro i
    by_cases hi : i < s.length
    · rw [List.getD_eq_getElem _ _ hi]
      exact hmem _ (List.getElem_mem _)
    · rw [List.getD_eq_default _ _ (le_of_not_lt hi)]
  by_cases hz : s.sum = 0
  · rw [if_pos hz]
    exact ⟨le_refl 0, by norm_num, fun _ => rfl⟩
  · rw [if_neg hz]
    have hsnn : 0 ≤ s.sum := List.sum_nonneg hmem
    have hspos : 0 < s.sum := lt_of_le_of_ne hsnn (Ne.symm hz)
    have hmono : MonovaryOn (fun i : ℕ => 2 * ((i:ℚ) + 1) - (values.length : ℚ) - 1)
        (fun i : ℕ => s.getD i 0) (Finset.range values.length : Finset ℕ) := by
      intro i hi j _ hlt
      have hij : i < j := by
        by_contra hcon
        push_neg at hcon
        have hi' : i < s.length := by
          rw [hlen]
          exact Finset.mem_range.mp hi
        have := sorted_getD_mono hsorted hcon hi'
        simp only at hlt
        linarith
      have hq : (i:ℚ) ≤ (j:ℚ) := by exact_mod_cast le_of_lt hij
      simp only
      linarith
    have hcheb := hmono.sum_mul_sum_le_card_mul_sum
    rw [sum_gini_coeff_zero, zero_mul, Finset.card_range] at hcheb
    have hNnn : 0 ≤ ∑ i ∈ Finset.range values.length,
        (2 * ((i:ℚ) + 1) - (values.length : ℚ) - 1) * s.getD i 0 := by
      nlinarith [hcheb, hnq]
    have hNle : (∑ i ∈ Finset.range values.length,
          (2 * ((i:ℚ) + 1) - (values.length : ℚ) - 1) * s.getD i 0)
        ≤ (values.length : ℚ) * s.sum := by
      have hterm : ∀ i ∈ Finset.range values.length,
          (2 * ((i:ℚ) + 1) - (values.length : ℚ) - 1) * s.getD i 0
            ≤ (values.length : ℚ) * s.getD i 0 := by
        intro i hi
        apply mul_le_mul_of_nonneg_right _ (hgd i)
        have hi1 : (i:ℚ) + 1 ≤ (values.length : ℚ) := by
          exact_mod_cast Finset.mem_range.mp hi
        linarith
      calc (∑ i ∈ Finset.range values.length,
              (2 * ((i:ℚ) + 1) - (values.length : ℚ) - 1) * s.getD i 0)
          ≤ ∑ i ∈ Finset.range values.length, (values.length : ℚ) * s.getD i 0 :=
            Finset.sum_le_sum hterm
        _ = (values.length : ℚ) * ∑ i ∈ Finset.range values.length, s.getD i 0 := by
            rw [Finset.mul_sum]
        _ = (values.length : ℚ) * s.sum := by
            congr 1
            rw [list_sum_eq_range_getD s, hlen]
    refine ⟨div_nonneg hNnn (by positivity), ?_, ?_⟩
    · rw [div_le_one (by positivity)]
      exact hNle
    · intro hall
      have hc : ∀ i, i < values.length → s.getD i 0 = s.getD 0 0 := by
        intro i hi
        have hi' : i < s.length := by
          rw [hlen]
          exact hi
        have h0' : 0 < s.length := lt_of_le_of_lt (Nat.zero_le i) hi'
        have hmi : s.getD i 0 ∈ s := by
          rw [List.getD_eq_getElem _ _ hi']
          exact List.getElem_mem _
        have hm0 : s.getD 0 0 ∈ s := by
          rw [List.getD_eq_getElem _ _ h0']
          exact List.getElem_mem _
        exact hall _ (hperm.mem_iff.mp hmi) _ (hperm.mem_iff.mp hm0)
      have hfac : (∑ i ∈ Finset.range values.length,
            (2 * ((i:ℚ) + 1) - (values.length : ℚ) - 1) * s.getD i 0)
          = (∑ i ∈ Finset.range values.length,
              (2 * ((i:ℚ) + 1) - (values.length : ℚ) - 1)) * s.getD 0 0 := by
        rw [Finset.sum_mul]
        apply Finset.sum_congr rfl
        intro i hi
        rw [hc i (Finset.mem_range.mp hi)]
      rw [hfac, sum_gini_coeff_zero, zero_mul, zero_div]

/-- C5 witness at the constant list `[2, 2, 2]`. -/
theorem C5_gini_in_unit_interval_witness :
    0 ≤ calculateGini [2, 2, 2] ∧ calculateGini [2, 2, 2] ≤ 1 ∧
      ((∀ v ∈ [(2:ℚ), 2, 2], ∀ w ∈ [(2:ℚ), 2, 2], v = w) →
        calculateGini [2, 2, 2] = 0) :=
  C5_gini_in_unit_interval [2, 2, 2] (by simp)
    (by norm_num [List.forall_mem_cons])

/-- The detection phase never records a count. -/
theorem detectPhase_lineCounts (lines : List String) (i : ℕ) (line : String)
    (st : ScanState) : (detectPhase lines i line st).lineCounts = st.lineCounts := by
  unfold detectPhase
  dsimp only
  split_ifs <;> rfl

/-- The close phase either leaves the recorded counts unchanged, or the
state was in a function, the updated depth returned to zero on a line with
a brace, and the single count `i - functionStartLine + 1` (exceeding one)
was appended. -/
theorem closePhase_cases (i : ℕ) (line : String) (st : ScanState) :
    (closePhase i line st).lineCounts = st.lineCounts ∨
      (st.inFunction = true ∧ newBraceCount line st = 0 ∧ lineHasBrace line ∧
        1 < (i:ℤ) - (st.functionStartLine:ℤ) + 1 ∧
        (closePhase i line st).lineCounts =
          st.lineCounts ++ [(i:ℤ) - (st.functionStartLine:ℤ) + 1]) := by
  unfold closePhase
  by_cases h1 : st.inFunction
  · rw [if_pos h1]
    dsimp only
    by_cases h2 : newBraceCount line st = 0 ∧ lineHasBrace line
    · rw [if_pos h2]
      dsimp only
      by_cases h3 : (1:ℤ) < (i:ℤ) - (st.functionStartLine:ℤ) + 1
      · exact Or.inr ⟨h1, h2.1, h2.2, h3, by rw [if_pos h3]⟩
      · refine Or.inl ?_
        rw [if_neg h3]
        simp
    · rw [if_neg h2]
      exact Or.inl rfl
  · rw [if_neg h1]
    exact Or.inl rfl

/-- Unfolding one step of the scanner's `for` loop. -/
theorem scanStateAt_succ (lines : List String) (k : ℕ) :
    scanStateAt lines (k + 1) = scanLine lines (scanStateAt lines k) k := by
  unfold scanStateAt
  rw [List.range_succ, List.foldl_append]
  rfl

/-- Loop invariant of the brace scanner: every count recorded in the first
`k` steps was produced at a recording event at some line `e < k` — at that
step the scanner was inside a function, the depth returned to zero on a
line with a brace — and the count is that closing line index minus the
`functionStartLine` in force at that step, plus one. -/
theorem scanStateAt_lineCounts_spec (lines : List String) :
    ∀ k : ℕ, ∀ c ∈ (scanStateAt lines k).lineCounts,
      1 < c ∧ ∃ e : ℕ, e < k ∧ recordsFunctionAt lines e ∧
        c = (e : ℤ) - (functionStartAt lines e : ℤ) + 1 := by
  intro k
  induction k with
  | zero =>
    intro c hc
    simp [scanStateAt, initialScanState] at hc
  | succ k ih =>
    intro c hc
    rw [scanStateAt_succ] at hc
    unfold scanLine at hc
    by_cases hskip : isSkippedLine ((lines.getD k "").trim)
    · rw [if_pos hskip] at hc
      obtain ⟨h1, e, he, hrec, heq⟩ := ih c hc
      exact ⟨h1, e, Nat.lt_succ_of_lt he, hrec, heq⟩
    · rw [if_neg hskip] at hc
      have hd := detectPhase_lineCounts lines k ((lines.getD k "").trim) (scanStateAt lines k)
      rcases closePhase_cases k ((lines.getD k "").trim)
          (detectPhase lines k ((lines.getD k "").trim) (scanStateAt lines k)) with
        h | ⟨hin, hbc, hbr, hgt, h⟩
      · rw [h, hd] at hc
        obtain ⟨h1, e, he, hrec, heq⟩ := ih c hc
        exact ⟨h1, e, Nat.lt_succ_of_lt he, hrec, heq⟩
      · rw [h, hd] at hc
        rcases List.mem_append.mp hc with hc | hc
        · obtain ⟨h1, e, he, hrec, heq⟩ := ih c hc
          exact ⟨h1, e, Nat.lt_succ_of_lt he, hrec, heq⟩
        · have hceq : c = (k:ℤ) - ((detectPhase lines k ((lines.getD k "").trim)
              (scanStateAt lines k)).functionStartLine : ℤ) + 1 := by
            simpa using hc
          refine ⟨hceq ▸ hgt, k, Nat.lt_succ_self k, ⟨hskip, hin, hbc, hbr⟩, ?_⟩
          rw [hceq]
          rfl

/-- Every count recorded by the brace scanner is the inclusive span of a
detected function: it was recorded at a closing line `e` (a processed line
on which the running depth returned to zero with a brace present, inside a
function) and equals `e` minus the function start line the scanner had
detected, plus one. -/
theorem countFunctionLines_spec (content : String) (c : ℤ)
    (hc : c ∈ countFunctionLines content) :
    1 < c ∧ ∃ e : ℕ, e < (content.splitOn "\n").length ∧
      recordsFunctionAt (content.splitOn "\n") e ∧
      c = (e : ℤ) - (functionStartAt (content.splitOn "\n") e : ℤ) + 1 := by
  have hc' : c ∈ (scanStateAt (content.splitOn "\n")
      ((content.splitOn "\n").length)).lineCounts := hc
  exact scanStateAt_lineCounts_spec (content.splitOn "\n")
    ((content.splitOn "\n").length) c hc'

/-- Every count recorded by the tree-sitter traversal is the inclusive span
of some descendant node of a function type, and exceeds one. -/
theorem traverseNode_spec : ∀ (root : Node) (c : ℕ), c ∈ traverseNode root →
    1 < c ∧ ∃ d ∈ descendants root, isFunctionNode d = true ∧ c = nodeSpan d := by
  intro root
  induction root using traverseNode.induct with
  | _ t s e cs ih =>
    intro c hc
    rw [traverseNode] at hc
    rcases List.mem_append.mp hc with hc | hc
    · by_cases hcond : isFunctionNode (.node t s e cs) ∧ 1 < nodeSpan (.node t s e cs)
      · rw [if_pos hcond] at hc
        have : c = nodeSpan (.node t s e cs) := by simpa using hc
        subst this
        refine ⟨hcond.2, ⟨.node t s e cs, ?_, ?_, rfl⟩⟩
        · rw [descendants]
          exact List.mem_cons_self _ _
        · exact hcond.1
      · rw [if_neg hcond] at hc
        simp at hc
    · rcases List.mem_flatten.mp hc with ⟨l, hl, hcl⟩
      rcases List.mem_map.mp hl with ⟨child, hchild, rfl⟩
      rcases ih child c hcl with ⟨h1, d, hd, hfn, hspan⟩
      refine ⟨h1, d, ?_, hfn, hspan⟩
      rw [descendants]
      apply List.mem_cons_of_mem
      apply List.mem_flatten.mpr
      exact ⟨descendants child.1, List.mem_map.mpr ⟨child, hchild, rfl⟩, hd⟩

/-- C7: every function line count recorded by either counter is the
inclusive number of source lines between the detected function's start
and end.  In the tree-sitter counter each recorded count is
`endLine - startLine + 1` of a descendant node of a function type; in the
brace counter each recorded count was produced at a recording event — a
processed closing line `e` on which the running depth returned to zero
with a brace, inside a function — and equals `e` minus the
`functionStartLine` the scanner had detected at that step, plus one.  In
both counters a count is recorded only when strictly greater than one
(one-line functions are skipped). -/
theorem C7_recorded_counts_are_inclusive_spans :
    (∀ (root : Node) (c : ℕ), c ∈ traverseNode root →
        1 < c ∧ ∃ d ∈ descendants root, isFunctionNode d = true ∧ c = nodeSpan d) ∧
    (∀ (content : String) (c : ℤ), c ∈ countFunctionLines content →
        1 < c ∧ ∃ e : ℕ, e < (content.splitOn "\n").length ∧
          recordsFunctionAt (content.splitOn "\n") e ∧
          c = (e : ℤ) - (functionStartAt (content.splitOn "\n") e : ℤ) + 1) :=
  ⟨traverseNode_spec, countFunctionLines_spec⟩

/-- C7 witness: a three-line `function_definition` node records span `3`. -/
theorem C7_recorded_counts_are_inclusive_spans_witness :
    1 < 3 ∧ ∃ d ∈ descendants (Node.node "function_definition" 0 2 []),
      isFunctionNode d = true ∧ 3 = nodeSpan d :=
  C7_recorded_counts_are_inclusive_spans.1 (Node.node "function_definition" 0 2 []) 3
    (by simp [traverseNode, isFunctionNode, nodeSpan, Node.nodeType,
      Node.endRow, Node.startRow])

/-- C8: the brace scanner records a function exactly when the running brace
depth returns to zero.  The detection phase never records; with the
`inFunction` flag clear the close phase is the identity; while the updated
depth has not returned to zero on a line with a brace nothing is recorded
and the flag stays set; and when the depth does return to zero on a line
containing a brace the flag is cleared and the span
`i - functionStartLine + 1` is recorded (when longer than one line). -/
theorem C8_scanner_records_at_zero_depth (lines : List String) (i : ℕ)
    (line : String) (st : ScanState) :
    (detectPhase lines i line st).lineCounts = st.lineCounts ∧
    (st.inFunction = false → closePhase i line st = st) ∧
    (st.inFunction = true → ¬(newBraceCount line st = 0 ∧ lineHasBrace line) →
        (closePhase i line st).lineCounts = st.lineCounts ∧
        (closePhase i line st).inFunction = true ∧
        (closePhase i line st).braceCount = newBraceCount line st) ∧
    (st.inFunction = true → newBraceCount line st = 0 → lineHasBrace line →
        (closePhase i line st).inFunction = false ∧
        (closePhase i line st).lineCounts = st.lineCounts ++
          (if 1 < (i : ℤ) - (st.functionStartLine : ℤ) + 1
           then [(i : ℤ) - (st.functionStartLine : ℤ) + 1] else [])) := by
  refine ⟨detectPhase_lineCounts lines i line st, ?_, ?_, ?_⟩
  · intro h
    unfold closePhase
    rw [if_neg (by rw [h]; exact Bool.false_ne_true)]
  · intro h hnc
    unfold closePhase
    rw [if_pos h]
    dsimp only
    rw [if_neg hnc]
    exact ⟨rfl, h, rfl⟩
  · intro h hbc hbrace
    unfold closePhase
    rw [if_pos h]
    dsimp only
    rw [if_pos ⟨hbc, hbrace⟩]
    exact ⟨rfl, rfl⟩

/-- C8 witness: a lone closing brace at depth `1` on line `2` of a function
started at line `0` clears the flag and records the span `3`. -/
theorem C8_scanner_records_at_zero_depth_witness :
    (closePhase 2 "\x7d" ⟨true, 0, 1, 0, []⟩).inFunction = false ∧
    (closePhase 2 "\x7d" ⟨true, 0, 1, 0, []⟩).lineCounts = [3] := by
  have h := (C8_scanner_records_at_zero_depth [] 2 "\x7d" ⟨true, 0, 1, 0, []⟩).2.2.2
    rfl (by decide) (by decide)
  refine ⟨h.1, ?_⟩
  rw [h.2]
  norm_num

end PA
